import Mathlib

/-!
A shallow embedding, over `ℚ`, of the core of the triangular-arbitrage
runner: the exchange filters with their quantity rounding, the two-stage
cycle evaluator, depth-3 cycle enumeration, the execution rollback loop,
the audit-record stream of the executor, and a small-step interleaving
model of the order-book seqlock.  Each definition is translated from the
C++ source file named in its doc comment.
-/

namespace Runner

/-- `Filters::LotSizeFilter` (include/fin/SymbolFilters.h): quantity rules
`minQty`, `maxQty`, `stepSize` for a symbol. -/
structure LotSizeFilter where
  minQty : ℚ := 0
  maxQty : ℚ := 0
  stepSize : ℚ := 0
deriving DecidableEq, Repr

/-- `Filters::LotSizeFilter::roundQty` (include/fin/SymbolFilters.h, lines
55-61): floor the quantity to the step grid, then clamp to `minQty` /
`maxQty` when each is set (> 0); with `stepSize ≤ 0` the quantity is
returned unchanged. -/
def LotSizeFilter.roundQty (f : LotSizeFilter) (qty : ℚ) : ℚ :=
  if f.stepSize ≤ 0 then qty
  else
    let r0 : ℚ := (⌊qty / f.stepSize⌋ : ℚ) * f.stepSize
    let r1 : ℚ := if 0 < f.minQty then max f.minQty r0 else r0
    if 0 < f.maxQty then min f.maxQty r1 else r1

/-- `SymbolFilter` (include/fin/SymbolFilter.h): the older lot-size-only
filter class carried by `::Symbol`. -/
structure SymbolFilter where
  minQty : ℚ := 0
  maxQty : ℚ := 0
  stepSize : ℚ := 0
deriving DecidableEq, Repr

/-- `SymbolFilter::roundQty` (include/fin/SymbolFilter.h, lines 34-38):
`max(minQty, min(floor(qty/step)*step, maxQty))`, with both clamps applied
unconditionally. -/
def SymbolFilter.roundQty (f : SymbolFilter) (qty : ℚ) : ℚ :=
  if f.stepSize ≤ 0 then qty
  else max f.minQty (min ((⌊qty / f.stepSize⌋ : ℚ) * f.stepSize) f.maxQty)

/-- `Filters::MinNotionalFilter` (include/fin/SymbolFilters.h). -/
structure MinNotionalFilter where
  minNotional : ℚ := 0
  applyToMarket : Bool := true
deriving DecidableEq, Repr

/-- `MinNotionalFilter::isValid`. -/
def MinNotionalFilter.isValid (f : MinNotionalFilter) : Bool :=
  decide (0 < f.minNotional)

/-- `MinNotionalFilter::minQtyForPrice`. -/
def MinNotionalFilter.minQtyForPrice (f : MinNotionalFilter) (price : ℚ) : ℚ :=
  if price ≤ 0 ∨ f.minNotional ≤ 0 then 0 else f.minNotional / price

/-- `Filters::NotionalFilter` (include/fin/SymbolFilters.h); only the
fields `minQtyForNotional` reads. -/
structure NotionalFilter where
  minNotional : ℚ := 0
  maxNotional : ℚ := 0
  applyMinToMarket : Bool := false
  applyMaxToMarket : Bool := false
deriving DecidableEq, Repr

/-- The filter container `SymbolFilters` (include/fin/SymbolFilters.h),
restricted to the members `minQtyForNotional` touches. -/
structure SymbolFilters where
  lotSize : LotSizeFilter := {}
  minNotional : MinNotionalFilter := {}
  notional : NotionalFilter := {}
deriving DecidableEq, Repr

/-- The combined lower bound `minQty` accumulated inside
`SymbolFilters::minQtyForNotional` (include/fin/SymbolFilters.h, lines
351-360) before the final rounding. -/
def SymbolFilters.notionalFloor (F : SymbolFilters) (price : ℚ) : ℚ :=
  let m0 := F.lotSize.minQty
  let m1 := if F.minNotional.isValid then max m0 (F.minNotional.minQtyForPrice price) else m0
  if 0 < F.notional.minNotional then max m1 (F.notional.minNotional / price) else m1

/-- `SymbolFilters::minQtyForNotional` (include/fin/SymbolFilters.h, lines
351-362): the accumulated bound plus one step, passed through
`lotSize.roundQty`. -/
def SymbolFilters.minQtyForNotional (F : SymbolFilters) (price : ℚ) : ℚ :=
  F.lotSize.roundQty (F.notionalFloor price + F.lotSize.stepSize)

/-- The `ceil_to_step` the spec describes (spec §4.3): the smallest
multiple of the step that is greater than or equal to the argument; stated
from the spec wording only, for comparison with the code. -/
def ceilToStepSpec (step x : ℚ) : ℚ :=
  if step ≤ 0 then x else (⌈x / step⌉ : ℚ) * step

/-! ### The two-stage evaluator

`ArbitragePath` (src/strategies/circular_arbitrage/ArbitragePath.cpp)
caches, per leg, the direction `isBuy_[leg]`, the quotes `bids_[leg]` /
`asks_[leg]` read through `updatePrices`, and the constructor-computed
`feeMultipliers_[leg] = 1 - fee/100`.  A leg of the embedding carries that
cached data; the per-leg quantity rounding (`orderSizer.roundQuantity(_, _,
true)` when the sizer knows the symbol, otherwise
`getFilters().roundQty`) is passed in as one function per leg, every
concrete instance of which is a clamped-floor rounding as defined above. -/

/-- One leg of an `ArbitragePath` after `updatePrices`: direction, cached
quotes, and the constructor-computed fee multiplier. -/
structure LegData where
  isBuy : Bool
  bid : ℚ
  ask : ℚ
  feeMultiplier : ℚ
deriving DecidableEq, Repr

/-- `Signal` as `ArbitragePath::evaluate` builds it: the three working
orders, reduced to their final `(price, qty)` pairs, and the theoretical
pnl.  (The cached description string is dropped.) -/
structure Signal where
  pnl : ℚ
  orders : List (ℚ × ℚ)
deriving DecidableEq, Repr

/-- The `effectiveMultipliers_[leg]` computed by `ArbitragePath::updatePrices`
(ArbitragePath.cpp, lines 57-73): `1/ask` for a Buy leg with `ask > 0`,
`bid` for a Sell leg with `bid > 0`, and `0` for an invalid leg. -/
def effectiveMultiplier (l : LegData) : ℚ :=
  if l.isBuy then (if 0 < l.ask then 1 / l.ask else 0)
  else (if 0 < l.bid then l.bid else 0)

/-- Whether `updatePrices` leaves `pricesValid_` set for one leg: a Buy leg
needs `ask > 0`, a Sell leg needs `bid > 0`. -/
def legPriceValid (l : LegData) : Bool :=
  if l.isBuy then decide (0 < l.ask) else decide (0 < l.bid)

/-- `pricesValid_` over the three legs of a path. -/
def pricesValid (l0 l1 l2 : LegData) : Bool :=
  legPriceValid l0 && legPriceValid l1 && legPriceValid l2

/-- `ArbitragePath::getFastRatio` (ArbitragePath.cpp, lines 76-88): `0`
when a leg is invalid, otherwise the product over the legs of
`effective_multiplier * fee_multiplier`. -/
def getFastRatio (l0 l1 l2 : LegData) : ℚ :=
  if pricesValid l0 l1 l2 then
    effectiveMultiplier l0 * l0.feeMultiplier *
      (effectiveMultiplier l1 * l1.feeMultiplier) *
      (effectiveMultiplier l2 * l2.feeMultiplier)
  else 0

/-- One iteration of the leg loop in `ArbitragePath::evaluate`
(ArbitragePath.cpp, lines 102-157), at the fee rate fixed before the loop:
rejects a leg with an invalid quote or a non-positive rounded quantity,
otherwise yields the working order's `(price, qty)` and the propagated
amount.  A Buy leg propagates `(current / ask) * (1 - feeRate)` and records
the raw quantity; a Sell leg rounds `current`, records the rounded
quantity, and propagates `rounded * bid * (1 - feeRate)`. -/
def evalLeg (feeRate : ℚ) (l : LegData) (round : ℚ → ℚ) (current : ℚ) :
    Option (ℚ × ℚ × ℚ) :=
  if l.bid ≤ 0 ∨ l.ask ≤ 0 then none
  else if l.isBuy then
    let orderPrice := l.ask
    let rawGetQty := current / orderPrice
    let endingQty := rawGetQty * (1 - feeRate)
    let roundedEndingQty := round endingQty
    if roundedEndingQty ≤ 0 then none
    else some (orderPrice, rawGetQty, endingQty)
  else
    let orderPrice := l.bid
    let roundedSellQty := round current
    if roundedSellQty ≤ 0 then none
    else some (orderPrice, roundedSellQty, roundedSellQty * orderPrice * (1 - feeRate))

/-- `ArbitragePath::evaluate` (ArbitragePath.cpp, lines 90-166).  Note the
source fixes `feeRate = 1.0 - feeMultipliers_[0]` before the loop and uses
it for every leg; its `getFee` parameter is never read.  A `Signal` is
returned iff the final `pnl = currentAmount - initialStake` is strictly
positive. -/
def evaluate (initialStake : ℚ) (l0 l1 l2 : LegData) (r0 r1 r2 : ℚ → ℚ) :
    Option Signal :=
  (evalLeg (1 - l0.feeMultiplier) l0 r0 initialStake).bind fun t0 =>
    (evalLeg (1 - l0.feeMultiplier) l1 r1 t0.2.2).bind fun t1 =>
      (evalLeg (1 - l0.feeMultiplier) l2 r2 t1.2.2).bind fun t2 =>
        if 0 < t2.2.2 - initialStake then
          some ⟨t2.2.2 - initialStake, [(t0.1, t0.2.1), (t1.1, t1.2.1), (t2.1, t2.2.1)]⟩
        else none

/-- Modelled from the spec (§4.5 full evaluation, and claim C3): the same
leg loop but applying, after each leg, that leg's own fee multiplier
`1 - fee_percent/100` instead of leg 1's.  Stated for comparison with
`evaluate`; the repository's `evaluate` is the authority. -/
def evaluatePerLegFees (initialStake : ℚ) (l0 l1 l2 : LegData) (r0 r1 r2 : ℚ → ℚ) :
    Option Signal :=
  (evalLeg (1 - l0.feeMultiplier) l0 r0 initialStake).bind fun t0 =>
    (evalLeg (1 - l1.feeMultiplier) l1 r1 t0.2.2).bind fun t1 =>
      (evalLeg (1 - l2.feeMultiplier) l2 r2 t1.2.2).bind fun t2 =>
        if 0 < t2.2.2 - initialStake then
          some ⟨t2.2.2 - initialStake, [(t0.1, t0.2.1), (t1.1, t1.2.1), (t2.1, t2.2.1)]⟩
        else none

/-- The per-path data `TriangularArbitrage::onMarketDataUpdate` feeds the
two-stage evaluation: the three cached legs and the three per-leg rounding
functions drawn from the order sizer. -/
structure PathInput where
  l0 : LegData
  l1 : LegData
  l2 : LegData
  r0 : ℚ → ℚ
  r1 : ℚ → ℚ
  r2 : ℚ → ℚ

/-- The body of the path loop in `TriangularArbitrage::onMarketDataUpdate`
(unnamed/part_002, lines 169-271): skip paths whose fast ratio is at most
`minProfitRatio`, otherwise fully evaluate and keep the signal with the
strictly largest pnl seen so far. -/
def screenStep (stake minProfitRatio : ℚ) (acc : Option Signal × ℚ) (p : PathInput) :
    Option Signal × ℚ :=
  if getFastRatio p.l0 p.l1 p.l2 ≤ minProfitRatio then acc
  else
    match evaluate stake p.l0 p.l1 p.l2 p.r0 p.r1 p.r2 with
    | none => acc
    | some sig => if acc.2 < sig.pnl then (some sig, sig.pnl) else acc

/-- `TriangularArbitrage::onMarketDataUpdate` (unnamed/part_002, lines
142-279), applied to the affected paths the inverted index materialised:
no signal for a non-positive stake or an empty path set, otherwise the
best strictly-positive-pnl signal of the fold with `bestPnl` starting at
`0`. -/
def onMarketDataUpdate (stake minProfitRatio : ℚ) (paths : List PathInput) :
    Option Signal :=
  if stake ≤ 0 then none
  else if paths.isEmpty then none
  else (paths.foldl (screenStep stake minProfitRatio) (none, 0)).1

/-! ### Cycle enumeration

`TriangularArbitrage::computeArbitragePaths` and `getPossibleOrders`
(src/strategies/circular_arbitrage/ArbitragePath.cpp, lines 259-338, and
unnamed/part_002, lines 67-140; the two copies are identical). -/

/-- `fin::Symbol` as the enumeration reads it: base asset, quote asset and
display name (include/fin/Symbol.h). -/
structure Sym where
  base : String
  quote : String
  name : String
deriving DecidableEq, Repr

/-- `Symbol::operator==` (include/fin/Symbol.h): equality on the base and
quote assets only; the display name is not compared. -/
def symEq (a b : Sym) : Bool :=
  a.base == b.base && a.quote == b.quote

/-- `Way` (unnamed/part_010). -/
inductive Way where
  | buy
  | sell
  | hold
deriving DecidableEq, Repr

/-- An `Order` as the enumeration builds it: a symbol and a direction
(quantity, price and type stay at their defaults until evaluation). -/
structure POrder where
  sym : Sym
  way : Way
deriving DecidableEq, Repr

/-- `Order::getStartingAsset` (unnamed/part_010): the asset a leg
consumes — the quote for a Buy, the base otherwise. -/
def POrder.getStartingAsset (o : POrder) : String :=
  match o.way with
  | .buy => o.sym.quote
  | _ => o.sym.base

/-- `Order::getResultingAsset` (unnamed/part_010): the asset a leg
produces — the base for a Buy, the quote otherwise. -/
def POrder.getResultingAsset (o : POrder) : String :=
  match o.way with
  | .buy => o.sym.base
  | _ => o.sym.quote

/-- The `resultingCoin` computed inside `computeArbitragePaths`: the quote
for a Sell, the base otherwise. -/
def resultingCoin (o : POrder) : String :=
  match o.way with
  | .sell => o.sym.quote
  | _ => o.sym.base

/-- `TriangularArbitrage::getPossibleOrders`: for each related symbol, a
Sell when the coin is its base, else a Buy when the coin is its quote. -/
def getPossibleOrders (coin : String) (relatedSymbols : List Sym) : List POrder :=
  relatedSymbols.filterMap fun symbol =>
    if coin = symbol.base then some ⟨symbol, Way.sell⟩
    else if coin = symbol.quote then some ⟨symbol, Way.buy⟩
    else none

/-- One iteration of the depth loop of `computeArbitragePaths`: every
partial path is extended by each possible next order over the symbols not
yet used in that path (symbol reuse is forbidden), and on the last
iteration (`i = arbitrageDepth - 2`) only extensions returning to the
starting asset are kept. -/
def extendStep (symbolsList : List Sym) (startingAsset : String)
    (arbitrageDepth i : Nat) (stratPaths : List (List POrder)) :
    List (List POrder) :=
  stratPaths.flatMap fun path =>
    match path.getLast? with
    | none => []
    | some lastOrder =>
      let rc := resultingCoin lastOrder
      let unusedSymbols := symbolsList.filter fun symbol =>
        !(path.any fun o => symEq o.sym symbol)
      (getPossibleOrders rc unusedSymbols).filterMap fun nextOrder =>
        if i = arbitrageDepth - 2 ∧ resultingCoin nextOrder ≠ startingAsset then none
        else some (path ++ [nextOrder])

/-- The depth loop `for (int i = 0; i < arbitrageDepth - 1; ++i)` of
`computeArbitragePaths`, as a recursion on the remaining iteration count
with `i` carried explicitly. -/
def pathLoop (symbolsList : List Sym) (startingAsset : String)
    (arbitrageDepth : Nat) : Nat → Nat → List (List POrder) → List (List POrder)
  | _, 0, acc => acc
  | i, remaining + 1, acc =>
    pathLoop symbolsList startingAsset arbitrageDepth (i + 1) remaining
      (extendStep symbolsList startingAsset arbitrageDepth i acc)

/-- `TriangularArbitrage::computeArbitragePaths`: seed with the orders
that consume the starting asset, then extend `arbitrageDepth - 1` times. -/
def computeArbitragePaths (symbolsList : List Sym) (startingAsset : String)
    (arbitrageDepth : Nat) : List (List POrder) :=
  let firstOrders := getPossibleOrders startingAsset symbolsList
  pathLoop symbolsList startingAsset arbitrageDepth 0 (arbitrageDepth - 1)
    (firstOrders.map fun order => [order])

/-! ### The rollback loop and the audit-record stream

`Runner::executeArbitrage`, `Runner::handleExecutionFailure` and
`Runner::executeRollback` (src/Runner.cpp, lines 104-336).  The broker is
modelled by its observable answers: one `waitForOrderCompletion` /
`getOrderState` outcome per market order submitted, indexed by submission
order. -/

/-- FIX order sides (`FIX::OE::Side_BUY` / `Side_SELL`). -/
inductive Side where
  | buy
  | sell
deriving DecidableEq, Repr

/-- The opposite side used by a rollback order (Runner.cpp, line 141). -/
def Side.opposite : Side → Side
  | .buy => .sell
  | .sell => .buy

/-- `BNB::FIX::OrderStatus`, the terminal statuses
`waitForOrderCompletion` can return (unnamed/part_006). -/
inductive OrderStatus where
  | filled
  | canceled
  | rejected
  | expired
  | unknown
deriving DecidableEq, Repr

/-- `ExecutedOrder` as `executeArbitrage` records it for rollback. -/
structure ExecutedOrder where
  clOrdId : String
  symbol : String
  side : Side
  filledQty : ℚ
  avgPrice : ℚ
deriving DecidableEq, Repr

/-- One `Broker::sendMarketOrder` call: the arguments it receives. -/
structure Submission where
  symbol : String
  side : Side
  qty : ℚ
  estPrice : ℚ
deriving DecidableEq, Repr

/-- The market order `executeRollback` submits for one executed leg
(Runner.cpp, lines 158-163): the opposite side, the filled quantity, and
the original fill price as the estimate. -/
def rollbackSubmission (e : ExecutedOrder) : Submission :=
  ⟨e.symbol, e.side.opposite, e.filledQty, e.avgPrice⟩

/-- `MAX_ROLLBACK_RETRIES` (Runner.cpp, line 134). -/
def MAX_ROLLBACK_RETRIES : Nat := 1

/-- The retry loop for one rollback leg (Runner.cpp, lines 152-196):
submit, and on any status other than `FILLED` retry while
`retryCount ≤ MAX_ROLLBACK_RETRIES`.  `statuses n` is the broker's answer
to the `n`-th rollback order submitted in this run; the result is the
submissions made, the next submission index, and whether the leg's
rollback succeeded. -/
def rollbackAttempts (statuses : Nat → OrderStatus) (e : ExecutedOrder) :
    Nat → Nat → List Submission × Nat × Bool
  | n, 0 => ([], n, false)
  | n, fuel + 1 =>
    if statuses n = OrderStatus.filled then ([rollbackSubmission e], n + 1, true)
    else
      let rest := rollbackAttempts statuses e (n + 1) fuel
      (rollbackSubmission e :: rest.1, rest.2.1, rest.2.2)

/-- The leg loop of `executeRollback` over an already-reversed executed
list: each leg runs its retry loop, a failed leg does not stop the
remaining legs, and the final flag is `allRollbacksSucceeded`. -/
def rollbackLoop (statuses : Nat → OrderStatus) :
    Nat → List ExecutedOrder → List Submission × Bool
  | _, [] => ([], true)
  | n, e :: rest =>
    let a := rollbackAttempts statuses e n (MAX_ROLLBACK_RETRIES + 1)
    let r := rollbackLoop statuses a.2.1 rest
    (a.1 ++ r.1, a.2.2 && r.2)

/-- `Runner::executeRollback` (Runner.cpp, lines 129-210): process the
recorded executed orders in reverse (LIFO) order. -/
def executeRollback (statuses : Nat → OrderStatus)
    (executedOrders : List ExecutedOrder) : List Submission × Bool :=
  rollbackLoop statuses 0 executedOrders.reverse

/-- The rollback orders `Runner::handleExecutionFailure` (Runner.cpp,
lines 104-127) submits: none at all when no order executed, otherwise
those of `executeRollback`. -/
def handleExecutionFailureSubmissions (statuses : Nat → OrderStatus)
    (executedOrders : List ExecutedOrder) : List Submission :=
  if executedOrders.isEmpty then [] else (executeRollback statuses executedOrders).1

/-- `TradeStatus` (include/persistence/TradePersistence.h). -/
inductive TradeStatus where
  | executed
  | partialFill
  | failed
  | rollback
deriving DecidableEq, Repr

/-- `TradeType` (include/persistence/TradePersistence.h): the leg position
within an arbitrage sequence. -/
inductive TradeType where
  | entry
  | intermediate
  | exitLeg
deriving DecidableEq, Repr

/-- `TradeRecord` (include/persistence/TradePersistence.h), the payload of
one audit-log line (the timestamp is dropped). -/
structure TradeRecord where
  tradeId : String
  parentTradeId : String
  tradeType : TradeType
  symbol : String
  side : Side
  intendedPrice : ℚ
  intendedQty : ℚ
  actualPrice : ℚ
  actualQty : ℚ
  status : TradeStatus
  pnl : ℚ
  pnlPct : ℚ
deriving DecidableEq, Repr

/-- One leg of a `Signal` as `executeArbitrage` reads it: symbol, side,
quantity and estimated price. -/
structure SignalLeg where
  symbol : String
  side : Side
  qty : ℚ
  estPrice : ℚ
deriving DecidableEq, Repr

/-- The broker's observable outcome for one submitted leg:
`waitForOrderCompletion` status and the `getOrderState` fill data. -/
structure LegOutcome where
  status : OrderStatus
  cumQty : ℚ
  avgPx : ℚ
deriving DecidableEq, Repr

/-- The leg loop of `Runner::executeArbitrage` (Runner.cpp, lines
234-336), keeping what it writes and records: the audit records appended
through `recordTrade`, the executed orders tracked for rollback, and the
index of the failed leg (`none` when all legs filled).  A leg whose status
is not `FILLED` fails with nothing recorded for it; a fill below 99% of
the requested quantity records the partial as executed (when anything
filled) and then fails; a full fill appends an `EXECUTED` audit record
with `ENTRY`/`INTERMEDIATE`/`EXIT` from the leg position and zero pnl
fields. -/
def execLegs (parent : String) (clOrdIds : Nat → String)
    (outcomes : Nat → LegOutcome) (totalLegs : Nat) :
    Nat → List SignalLeg → List TradeRecord × List ExecutedOrder × Option Nat
  | _, [] => ([], [], none)
  | k, leg :: rest =>
    let st := outcomes k
    if st.status ≠ OrderStatus.filled then ([], [], some k)
    else if st.cumQty < leg.qty * (99 / 100) then
      ([], if 0 < st.cumQty then [⟨clOrdIds k, leg.symbol, leg.side, st.cumQty, st.avgPx⟩] else [],
        some k)
    else
      let record : TradeRecord :=
        { tradeId := clOrdIds k
          parentTradeId := parent
          tradeType :=
            if k = 0 then TradeType.entry
            else if k = totalLegs - 1 then TradeType.exitLeg
            else TradeType.intermediate
          symbol := leg.symbol
          side := leg.side
          intendedPrice := leg.estPrice
          intendedQty := leg.qty
          actualPrice := st.avgPx
          actualQty := st.cumQty
          status := TradeStatus.executed
          pnl := 0
          pnlPct := 0 }
      let tail := execLegs parent clOrdIds outcomes totalLegs (k + 1) rest
      (record :: tail.1, ⟨clOrdIds k, leg.symbol, leg.side, st.cumQty, st.avgPx⟩ :: tail.2.1,
        tail.2.2)

/-- The audit records one `executeArbitrage` call writes.  The failure
path (`handleExecutionFailure` → `executeRollback` → throw) calls
`recordTrade` nowhere, so the stream is exactly what the leg loop
appended. -/
def executeArbitrageRecords (parent : String) (clOrdIds : Nat → String)
    (outcomes : Nat → LegOutcome) (legs : List SignalLeg) : List TradeRecord :=
  (execLegs parent clOrdIds outcomes legs.length 0 legs).1

/-- The executed orders `executeArbitrage` has tracked when it stops. -/
def executeArbitrageExecuted (parent : String) (clOrdIds : Nat → String)
    (outcomes : Nat → LegOutcome) (legs : List SignalLeg) : List ExecutedOrder :=
  (execLegs parent clOrdIds outcomes legs.length 0 legs).2.1

/-- The index of the leg at which `executeArbitrage` failed, `none` when
every leg filled. -/
def executeArbitrageFailedLeg (parent : String) (clOrdIds : Nat → String)
    (outcomes : Nat → LegOutcome) (legs : List SignalLeg) : Option Nat :=
  (execLegs parent clOrdIds outcomes legs.length 0 legs).2.2

/-! ### The order book

`OrderBook` (unnamed/part_012).  For the frame property of
`OrderBook::update` the book is modelled as one sequential state: a map
from symbol id to slot plus the update-signalling state; `update` is a
state transformer that also reports whether `notify_one` was reached.
(The 64-bit sequence counter is modelled as an unbounded natural: a wrap
of a monotone 64-bit counter never occurs in a process lifetime.) -/

/-- `AtomicPriceSlot` (unnamed/part_012, lines 103-112): the sequence
counter and the quote pair. -/
structure PriceSlot where
  sequence : Nat
  bid : ℚ
  ask : ℚ
deriving DecidableEq, Repr

/-- The state of an `OrderBook`: the slot array and the update-signalling
state (`updatedBits_`, `hasUpdates_`, `hasUpdatesAtomic_`). -/
structure OrderBookState where
  slots : Nat → PriceSlot
  updatedBits : Nat → Bool
  hasUpdates : Bool
  hasUpdatesAtomic : Bool

/-- `OrderBook::update` (unnamed/part_012, lines 138-170) as a state
transformer, paired with whether the call reached `notify_one`: an update
with `bid == 0 && ask == 0` returns before touching anything; otherwise
the slot's sequence is advanced by two, each strictly positive component
is stored, the slot's bit and both has-updates flags are set, and one
waiter is notified. -/
def obUpdate (s : OrderBookState) (id : Nat) (bid ask : ℚ) :
    OrderBookState × Bool :=
  if bid = 0 ∧ ask = 0 then (s, false)
  else
    let slot := s.slots id
    let written : PriceSlot :=
      { sequence := slot.sequence + 2
        bid := if 0 < bid then bid else slot.bid
        ask := if 0 < ask then ask else slot.ask }
    ({ slots := fun j => if j = id then written else s.slots j
       updatedBits := fun j => if j = id then true else s.updatedBits j
       hasUpdates := true
       hasUpdatesAtomic := true }, true)

/-- `OrderBook::waitForUpdates` consumption (unnamed/part_012, lines
237-246) once the wait predicate `hasUpdates_` holds: snapshot the bitmap
and clear the shared state.  The wait itself blocks exactly while
`hasUpdates` is false. -/
def obConsumeUpdates (s : OrderBookState) : (Nat → Bool) × OrderBookState :=
  (s.updatedBits,
    { s with
        updatedBits := fun _ => false
        hasUpdates := false
        hasUpdatesAtomic := false })

/-! ### The seqlock, as a small-step interleaving model

`OrderBook::update` and `OrderBook::get` on one slot (unnamed/part_012,
lines 138-206), under sequentially consistent interleaving: a writer —
serialized per slot, as the write protocol requires — performs a fixed
list of updates, each split into its atomic steps (store `seq+1`; store
the bid component when positive; store the ask component when positive;
store `seq+2`), while a reader runs `get` (load `seq`, keeping only an
even value; read `bid`; read `ask`; load `seq` again and retry on
mismatch).  An update whose two components are both zero returns without
touching the slot. -/

/-- Where the writer stands inside one `update` call. -/
inductive WPhase where
  | idle
  | wroteSeq
  | wroteBid
  | wroteAsk
deriving DecidableEq, Repr

/-- The reader's program counter and locals inside `get`. -/
inductive RState where
  | start
  | gotSeq (s1 : Nat)
  | gotBid (s1 : Nat) (b : ℚ)
  | gotAsk (s1 : Nat) (b a : ℚ)
  | finished (b a : ℚ)
deriving DecidableEq, Repr

/-- A configuration of the one-slot writer/reader system. -/
structure SeqConfig where
  seq : Nat
  bid : ℚ
  ask : ℚ
  wdone : Nat
  phase : WPhase
  reader : RState
deriving DecidableEq, Repr

/-- The effect of one completed `update(bid, ask)` on the stored pair:
each strictly positive component replaces the stored one (the partial
update rule). -/
def applyWrite (p : ℚ × ℚ) (w : ℚ × ℚ) : ℚ × ℚ :=
  (if 0 < w.1 then w.1 else p.1, if 0 < w.2 then w.2 else p.2)

/-- The pair the slot holds after the first `k` writes have completed,
starting from the zero-initialised slot. -/
def slotAfter (writes : List (ℚ × ℚ)) (k : Nat) : ℚ × ℚ :=
  (writes.take k).foldl applyWrite (0, 0)

/-- The initial configuration: zeroed slot, no write started, reader at
the top of `get`. -/
def seqInit : SeqConfig :=
  { seq := 0, bid := 0, ask := 0, wdone := 0, phase := WPhase.idle,
    reader := RState.start }

/-- One interleaved step of the writer or the reader. -/
inductive SeqStep (writes : List (ℚ × ℚ)) : SeqConfig → SeqConfig → Prop where
  /-- `update` with both components zero: return before touching the slot. -/
  | wSkip (c : SeqConfig) (w : ℚ × ℚ) :
      c.phase = WPhase.idle → writes[c.wdone]? = some w → w.1 = 0 → w.2 = 0 →
      SeqStep writes c { c with wdone := c.wdone + 1 }
  /-- The writer stores `seq + 1`, marking the slot dirty. -/
  | wBegin (c : SeqConfig) (w : ℚ × ℚ) :
      c.phase = WPhase.idle → writes[c.wdone]? = some w → ¬(w.1 = 0 ∧ w.2 = 0) →
      SeqStep writes c { c with seq := c.seq + 1, phase := WPhase.wroteSeq }
  /-- The writer stores the bid component when it is positive. -/
  | wWriteBid (c : SeqConfig) (w : ℚ × ℚ) :
      c.phase = WPhase.wroteSeq → writes[c.wdone]? = some w →
      SeqStep writes c
        { c with bid := if 0 < w.1 then w.1 else c.bid, phase := WPhase.wroteBid }
  /-- The writer stores the ask component when it is positive. -/
  | wWriteAsk (c : SeqConfig) (w : ℚ × ℚ) :
      c.phase = WPhase.wroteBid → writes[c.wdone]? = some w →
      SeqStep writes c
        { c with ask := if 0 < w.2 then w.2 else c.ask, phase := WPhase.wroteAsk }
  /-- The writer stores `seq + 2`, completing the update. -/
  | wEnd (c : SeqConfig) :
      c.phase = WPhase.wroteAsk →
      SeqStep writes c
        { c with seq := c.seq + 1, phase := WPhase.idle, wdone := c.wdone + 1 }
  /-- The reader loads the sequence and proceeds only on an even value
  (an odd load pause-loops in place). -/
  | rReadSeq (c : SeqConfig) :
      c.reader = RState.start → c.seq % 2 = 0 →
      SeqStep writes c { c with reader := RState.gotSeq c.seq }
  /-- The reader copies the bid. -/
  | rReadBid (c : SeqConfig) (s1 : Nat) :
      c.reader = RState.gotSeq s1 →
      SeqStep writes c { c with reader := RState.gotBid s1 c.bid }
  /-- The reader copies the ask. -/
  | rReadAsk (c : SeqConfig) (s1 : Nat) (b : ℚ) :
      c.reader = RState.gotBid s1 b →
      SeqStep writes c { c with reader := RState.gotAsk s1 b c.ask }
  /-- The second sequence load disagrees: retry from the top. -/
  | rRetry (c : SeqConfig) (s1 : Nat) (b a : ℚ) :
      c.reader = RState.gotAsk s1 b a → c.seq ≠ s1 →
      SeqStep writes c { c with reader := RState.start }
  /-- The second sequence load agrees: `get` returns `(b, a)`. -/
  | rDone (c : SeqConfig) (s1 : Nat) (b a : ℚ) :
      c.reader = RState.gotAsk s1 b a → c.seq = s1 →
      SeqStep writes c { c with reader := RState.finished b a }

/-- Reachability of the interleaved system from the initial state. -/
def SeqReachable (writes : List (ℚ × ℚ)) (c : SeqConfig) : Prop :=
  Relation.ReflTransGen (SeqStep writes) seqInit c

/-- The slot/writer part of the seqlock invariant: the sequence parity
matches the writer's phase, and the stored pair is determined by the
completed writes and the in-progress write's position. -/
def writerSlotInv (writes : List (ℚ × ℚ)) (c : SeqConfig) : Prop :=
  match c.phase with
  | WPhase.idle => c.seq % 2 = 0 ∧ (c.bid, c.ask) = slotAfter writes c.wdone
  | WPhase.wroteSeq => c.seq % 2 = 1 ∧ (c.bid, c.ask) = slotAfter writes c.wdone
  | WPhase.wroteBid => c.seq % 2 = 1 ∧ ∃ w, writes[c.wdone]? = some w ∧
      c.bid = (applyWrite (slotAfter writes c.wdone) w).1 ∧
      c.ask = (slotAfter writes c.wdone).2
  | WPhase.wroteAsk => c.seq % 2 = 1 ∧ ∃ w, writes[c.wdone]? = some w ∧
      (c.bid, c.ask) = applyWrite (slotAfter writes c.wdone) w

/-- The reader part of the seqlock invariant, over the reader state and
the shared fields it observes: a captured first sequence is even and at
most the current sequence, and while it still equals the current sequence
the writer is idle and the captured components equal the stored ones; a
finished read is a stable value. -/
def readerInvP (writes : List (ℚ × ℚ)) (rd : RState) (seq : Nat) (ph : WPhase)
    (bid ask : ℚ) : Prop :=
  match rd with
  | RState.start => True
  | RState.gotSeq s1 => s1 % 2 = 0 ∧ s1 ≤ seq ∧ (s1 = seq → ph = WPhase.idle)
  | RState.gotBid s1 b => s1 % 2 = 0 ∧ s1 ≤ seq ∧
      (s1 = seq → ph = WPhase.idle ∧ b = bid)
  | RState.gotAsk s1 b a => s1 % 2 = 0 ∧ s1 ≤ seq ∧
      (s1 = seq → ph = WPhase.idle ∧ b = bid ∧ a = ask)
  | RState.finished b a => ∃ k, k ≤ writes.length ∧ (b, a) = slotAfter writes k

/-- The reader invariant of a configuration. -/
def readerInv (writes : List (ℚ × ℚ)) (c : SeqConfig) : Prop :=
  readerInvP writes c.reader c.seq c.phase c.bid c.ask

/-- The full seqlock invariant. -/
def SeqInv (writes : List (ℚ × ℚ)) (c : SeqConfig) : Prop :=
  c.wdone ≤ writes.length ∧ writerSlotInv writes c ∧ readerInv writes c

end Runner

/-! ## Theorems -/

namespace Runner

/-- Flooring to a positive step never exceeds the argument. -/
theorem floor_step_le {q s : ℚ} (hs : 0 < s) : (⌊q / s⌋ : ℚ) * s ≤ q := by
  have h := Int.floor_le (q / s)
  have h2 : (⌊q / s⌋ : ℚ) * s ≤ (q / s) * s := mul_le_mul_of_nonneg_right h hs.le
  rwa [div_mul_cancel₀ q hs.ne'] at h2

/-- The argument is less than one step above its floored value. -/
theorem lt_floor_step_add {q s : ℚ} (hs : 0 < s) : q < (⌊q / s⌋ : ℚ) * s + s := by
  have h := Int.lt_floor_add_one (q / s)
  have h2 : q < ((⌊q / s⌋ : ℚ) + 1) * s := (div_lt_iff₀ hs).mp h
  linarith [h2]

/-- Claim C4, counterexample: with `minQty = 2`, `stepSize = 1` the lot
filter rounds the quantity `1/2` up to `2`, so `round_qty(q) ≤ q` fails
and the rounding error reaches `3/2 ≥ step_size`. -/
theorem roundQty_min_clamp_rounds_up :
    LotSizeFilter.roundQty ⟨2, 0, 1⟩ (1 / 2) = 2 ∧
    ¬ LotSizeFilter.roundQty ⟨2, 0, 1⟩ (1 / 2) ≤ (1 / 2 : ℚ) ∧
    ¬ |(1 / 2 : ℚ) - LotSizeFilter.roundQty ⟨2, 0, 1⟩ (1 / 2)| < 1 := by
  have h : LotSizeFilter.roundQty ⟨2, 0, 1⟩ (1 / 2) = 2 := by
    unfold LotSizeFilter.roundQty
    norm_num
  refine ⟨h, ?_, ?_⟩ <;> rw [h] <;> norm_num [abs_of_nonpos]

/-- Claim C4, amended: quantity rounding is toward zero whenever the
`minQty` clamp is disabled — `round_qty(q) ≤ q` for `q ≥ 0`, and with the
`maxQty` clamp also disabled the rounding error stays below a positive
step; the same no-round-up bound holds for the older
`SymbolFilter::roundQty`. -/
theorem roundQty_toward_zero_amended :
    (∀ (f : LotSizeFilter) (q : ℚ), 0 ≤ q → f.minQty = 0 →
      f.roundQty q ≤ q ∧
        (f.maxQty = 0 → 0 < f.stepSize → |q - f.roundQty q| < f.stepSize)) ∧
    (∀ (g : SymbolFilter) (q : ℚ), 0 ≤ q → g.minQty = 0 → g.roundQty q ≤ q) := by
  constructor
  · intro f q hq hmin
    unfold LotSizeFilter.roundQty
    rcases le_or_lt f.stepSize 0 with hstep | hstep
    · rw [if_pos hstep]
      exact ⟨le_refl q, fun _ hpos => absurd hpos (not_lt.mpr hstep)⟩
    · rw [if_neg (not_le.mpr hstep), hmin]
      simp only [lt_self_iff_false, if_false]
      rcases lt_or_le 0 f.maxQty with hmax | hmax
      · rw [if_pos hmax]
        refine ⟨le_trans (min_le_right _ _) (floor_step_le hstep), ?_⟩
        intro hmax0 _
        rw [hmax0] at hmax
        exact absurd hmax (lt_irrefl 0)
      · rw [if_neg (not_lt.mpr hmax)]
        refine ⟨floor_step_le hstep, ?_⟩
        intro _ _
        rw [abs_of_nonneg (sub_nonneg.mpr (floor_step_le hstep))]
        have := lt_floor_step_add (q := q) hstep
        linarith
  · intro g q hq hmin
    unfold SymbolFilter.roundQty
    rcases le_or_lt g.stepSize 0 with hstep | hstep
    · rw [if_pos hstep]
    · rw [if_neg (not_le.mpr hstep), hmin]
      exact max_le hq (le_trans (min_le_left _ _) (floor_step_le hstep))

/-- Claim C8, counterexample: lot step `1`, `min_notional = 2`, price `2`:
`max(lot_min, notional_min/price) = 1` is an exact step multiple, the
spec's `ceil_to_step` gives `1`, but `minQtyForNotional` returns `2`. -/
theorem minQtyForNotional_exact_multiple_cex :
    SymbolFilters.minQtyForNotional ⟨⟨0, 0, 1⟩, ⟨2, true⟩, ⟨0, 0, false, false⟩⟩ 2 = 2 ∧
    ceilToStepSpec 1 (max (0 : ℚ) (2 / 2)) = 1 ∧
    (2 : ℚ) ≠ 1 := by
  refine ⟨?_, ?_, by norm_num⟩
  · unfold SymbolFilters.minQtyForNotional SymbolFilters.notionalFloor
      MinNotionalFilter.isValid MinNotionalFilter.minQtyForPrice LotSizeFilter.roundQty
    norm_num
  · unfold ceilToStepSpec
    norm_num

/-- Claim C8, amended: with a positive step and the lot clamps unset,
`minQtyForNotional(price)` is the smallest step multiple strictly greater
than the accumulated bound (the code adds a whole step before flooring, so
at an exact multiple it lands one step above the spec's `ceil_to_step`). -/
theorem minQtyForNotional_strict_step_amended (F : SymbolFilters) (price : ℚ)
    (hstep : 0 < F.lotSize.stepSize) (hmin : F.lotSize.minQty = 0)
    (hmax : F.lotSize.maxQty = 0) :
    F.notionalFloor price < F.minQtyForNotional price ∧
    F.minQtyForNotional price =
      ((⌊F.notionalFloor price / F.lotSize.stepSize⌋ : ℚ) + 1) * F.lotSize.stepSize ∧
    ∀ k : ℤ, F.notionalFloor price < (k : ℚ) * F.lotSize.stepSize →
      F.minQtyForNotional price ≤ (k : ℚ) * F.lotSize.stepSize := by
  have key : F.minQtyForNotional price =
      ((⌊F.notionalFloor price / F.lotSize.stepSize⌋ : ℚ) + 1) * F.lotSize.stepSize := by
    unfold SymbolFilters.minQtyForNotional LotSizeFilter.roundQty
    rw [if_neg (not_le.mpr hstep), hmin, hmax]
    simp only [lt_self_iff_false, if_false]
    have hdiv : (F.notionalFloor price + F.lotSize.stepSize) / F.lotSize.stepSize =
        F.notionalFloor price / F.lotSize.stepSize + 1 := by
      field_simp
    rw [hdiv, Int.floor_add_one]
    push_cast
    ring
  refine ⟨?_, key, ?_⟩
  · rw [key]
    have h := Int.lt_floor_add_one (F.notionalFloor price / F.lotSize.stepSize)
    exact (div_lt_iff₀ hstep).mp h
  · intro k hk
    rw [key]
    have h1 : F.notionalFloor price / F.lotSize.stepSize < (k : ℚ) :=
      (div_lt_iff₀ hstep).mpr hk
    have h2 : ⌊F.notionalFloor price / F.lotSize.stepSize⌋ < k := Int.floor_lt.mpr h1
    have h3 : ((⌊F.notionalFloor price / F.lotSize.stepSize⌋ : ℚ) + 1) ≤ (k : ℚ) := by
      exact_mod_cast h2
    exact mul_le_mul_of_nonneg_right h3 hstep.le

/-- The zero lot filter rounds nothing: `roundQty` with step `0` is the
identity. -/
theorem roundQty_zero_id (x : ℚ) : LotSizeFilter.roundQty ⟨0, 0, 0⟩ x = x := by
  unfold LotSizeFilter.roundQty
  norm_num

/-- An effective multiplier is never negative. -/
theorem effectiveMultiplier_nonneg (l : LegData) : 0 ≤ effectiveMultiplier l := by
  unfold effectiveMultiplier
  split_ifs with h1 h2 h3
  · exact (div_pos one_pos h2).le
  · exact le_refl 0
  · exact h3.le
  · exact le_refl 0

/-- A leg that returns a value passed the quote guard: both sides of its
quote are positive. -/
theorem evalLeg_guard {feeRate : ℚ} {l : LegData} {r : ℚ → ℚ} {current p q c2 : ℚ}
    (h : evalLeg feeRate l r current = some (p, q, c2)) : 0 < l.bid ∧ 0 < l.ask := by
  unfold evalLeg at h
  split at h
  · cases h
  · next hg =>
    push_neg at hg
    exact hg

/-- A leg that returns a value is price-valid in the fast screen's sense. -/
theorem evalLeg_priceValid {feeRate : ℚ} {l : LegData} {r : ℚ → ℚ} {current p q c2 : ℚ}
    (h : evalLeg feeRate l r current = some (p, q, c2)) : legPriceValid l = true := by
  obtain ⟨hbid, hask⟩ := evalLeg_guard h
  unfold legPriceValid
  split <;> simp [hbid, hask]

/-- When a successful `evaluate` is unfolded: the three leg equations at
leg 1's fee rate, and the signal's pnl as the final amount over the
stake, strictly positive. -/
theorem evaluate_some_final {stake : ℚ} {l0 l1 l2 : LegData} {r0 r1 r2 : ℚ → ℚ}
    {sig : Signal} (h : evaluate stake l0 l1 l2 r0 r1 r2 = some sig) :
    ∃ p0 q0 c1 p1 q1 c2 p2 q2 c3,
      evalLeg (1 - l0.feeMultiplier) l0 r0 stake = some (p0, q0, c1) ∧
      evalLeg (1 - l0.feeMultiplier) l1 r1 c1 = some (p1, q1, c2) ∧
      evalLeg (1 - l0.feeMultiplier) l2 r2 c2 = some (p2, q2, c3) ∧
      sig.pnl = c3 - stake ∧ 0 < sig.pnl := by
  simp only [evaluate, Option.bind_eq_some] at h
  obtain ⟨t0, h0, t1, h1, t2, h2, hif⟩ := h
  split_ifs at hif with hp
  obtain rfl := Option.some.inj hif
  exact ⟨t0.1, t0.2.1, t0.2.2, t1.1, t1.2.1, t1.2.2, t2.1, t2.2.1, t2.2.2,
    h0, h1, h2, rfl, hp⟩

/-- Any signal `ArbitragePath::evaluate` returns carries a strictly
positive pnl. -/
theorem evaluate_some_pnl_pos {stake : ℚ} {l0 l1 l2 : LegData} {r0 r1 r2 : ℚ → ℚ}
    {sig : Signal} (h : evaluate stake l0 l1 l2 r0 r1 r2 = some sig) : 0 < sig.pnl := by
  obtain ⟨_, _, _, _, _, _, _, _, _, _, _, _, _, hpos⟩ := evaluate_some_final h
  exact hpos

/-- The best-signal fold of `onMarketDataUpdate` preserves strict
positivity of the tracked signal's pnl. -/
theorem screenFold_pnl_pos (stake mpr : ℚ) (paths : List PathInput) :
    ∀ acc : Option Signal × ℚ,
      (∀ s, acc.1 = some s → 0 < s.pnl) →
      ∀ s, (paths.foldl (screenStep stake mpr) acc).1 = some s → 0 < s.pnl := by
  induction paths with
  | nil =>
    intro acc hacc s h
    exact hacc s h
  | cons p rest ih =>
    intro acc hacc s h
    rw [List.foldl_cons] at h
    refine ih (screenStep stake mpr acc p) ?_ s h
    intro s2 h2
    unfold screenStep at h2
    split at h2
    · exact hacc s2 h2
    · split at h2
      · exact hacc s2 h2
      · next sig heval =>
        split at h2
        · obtain rfl := Option.some.inj h2
          exact evaluate_some_pnl_pos heval
        · exact hacc s2 h2

/-- Claim C1: any signal a cycle's full evaluation returns, and hence any
signal the evaluator entry point returns, has a strictly positive
theoretical pnl; a zero or negative computed pnl yields no signal. -/
theorem signal_pnl_positive :
    (∀ (stake : ℚ) (l0 l1 l2 : LegData) (r0 r1 r2 : ℚ → ℚ) (sig : Signal),
        evaluate stake l0 l1 l2 r0 r1 r2 = some sig → 0 < sig.pnl) ∧
    (∀ (stake minProfitRatio : ℚ) (paths : List PathInput) (sig : Signal),
        onMarketDataUpdate stake minProfitRatio paths = some sig → 0 < sig.pnl) := by
  constructor
  · intro stake l0 l1 l2 r0 r1 r2 sig h
    exact evaluate_some_pnl_pos h
  · intro stake mpr paths sig h
    unfold onMarketDataUpdate at h
    split at h
    · cases h
    · split at h
      · cases h
      · refine screenFold_pnl_pos stake mpr paths (none, 0) ?_ sig h
        intro s hs
        cases hs

/-- A successful leg's propagated amount is nonnegative and bounded by the
incoming amount times `effective_multiplier * fm`, when the fee rate is
`1 - fm` with `fm ≥ 0` and the rounding never rounds a nonnegative
quantity up. -/
theorem evalLeg_bound {fm : ℚ} {l : LegData} {r : ℚ → ℚ} {current p q c2 : ℚ}
    (hfm : 0 ≤ fm) (hr : ∀ x, 0 ≤ x → r x ≤ x) (hc : 0 ≤ current)
    (h : evalLeg (1 - fm) l r current = some (p, q, c2)) :
    0 ≤ c2 ∧ c2 ≤ current * (effectiveMultiplier l * fm) := by
  obtain ⟨hbid, hask⟩ := evalLeg_guard h
  simp only [evalLeg] at h
  rw [if_neg (not_or.mpr ⟨not_le.mpr hbid, not_le.mpr hask⟩)] at h
  by_cases hb : l.isBuy = true
  · rw [if_pos hb] at h
    split_ifs at h
    simp only [Option.some.injEq, Prod.mk.injEq] at h
    obtain ⟨-, -, hc2⟩ := h
    have heff : effectiveMultiplier l = 1 / l.ask := by
      unfold effectiveMultiplier
      rw [if_pos hb, if_pos hask]
    have hval : c2 = current * (1 / l.ask * fm) := by
      rw [← hc2]
      ring
    constructor
    · rw [hval]
      exact mul_nonneg hc (mul_nonneg (div_pos one_pos hask).le hfm)
    · exact le_of_eq (by rw [hval, heff])
  · rw [if_neg hb] at h
    split_ifs at h with hrneg
    push_neg at hrneg
    simp only [Option.some.injEq, Prod.mk.injEq] at h
    obtain ⟨-, -, hc2⟩ := h
    have heff : effectiveMultiplier l = l.bid := by
      unfold effectiveMultiplier
      rw [if_neg hb, if_pos hbid]
    have hc2f : r current * l.bid * fm = c2 := by
      rw [← hc2]
      ring
    constructor
    · rw [← hc2f]
      exact mul_nonneg (mul_nonneg hrneg.le hbid.le) hfm
    · rw [← hc2f, heff, ← mul_assoc]
      exact mul_le_mul_of_nonneg_right
        (mul_le_mul_of_nonneg_right (hr current hc) hbid.le) hfm

/-- Claim C2, counterexample: legs with different configured fees.  The
fast ratio uses each leg's own fee multiplier (here `1, 1/2, 1/2`) and is
far below `1`, but full evaluation applies leg 1's zero fee to every leg
and emits a signal with positive pnl at stake `100`. -/
theorem fast_screen_unsound_cex :
    getFastRatio ⟨false, 101 / 100, 1, 1⟩ ⟨false, 101 / 100, 1, 1 / 2⟩
      ⟨false, 101 / 100, 1, 1 / 2⟩ ≤ 1 ∧
    (0 : ℚ) < 100 ∧
    evaluate 100 ⟨false, 101 / 100, 1, 1⟩ ⟨false, 101 / 100, 1, 1 / 2⟩
        ⟨false, 101 / 100, 1, 1 / 2⟩ (LotSizeFilter.roundQty ⟨0, 0, 0⟩)
        (LotSizeFilter.roundQty ⟨0, 0, 0⟩) (LotSizeFilter.roundQty ⟨0, 0, 0⟩) =
      some ⟨30301 / 10000, [(101 / 100, 100), (101 / 100, 101), (101 / 100, 10201 / 100)]⟩ := by
  refine ⟨?_, by norm_num, ?_⟩
  · unfold getFastRatio pricesValid legPriceValid effectiveMultiplier
    norm_num
  · unfold evaluate evalLeg
    simp only [roundQty_zero_id]
    norm_num

/-- Claim C2, amended: fast-screen soundness holds when the three legs
share leg 1's fee multiplier (no per-symbol overrides among the legs, fee
at most 100%) and every leg's rounding never rounds a nonnegative quantity
up: a fast ratio at most `1` makes full evaluation emit no signal at any
positive stake. -/
theorem fast_screen_sound_amended (l0 l1 l2 : LegData) (r0 r1 r2 : ℚ → ℚ) (stake : ℚ)
    (hfm1 : l1.feeMultiplier = l0.feeMultiplier)
    (hfm2 : l2.feeMultiplier = l0.feeMultiplier)
    (hfm0 : 0 ≤ l0.feeMultiplier)
    (hr0 : ∀ x, 0 ≤ x → r0 x ≤ x) (hr1 : ∀ x, 0 ≤ x → r1 x ≤ x)
    (hr2 : ∀ x, 0 ≤ x → r2 x ≤ x)
    (hstake : 0 < stake)
    (hratio : getFastRatio l0 l1 l2 ≤ 1) :
    evaluate stake l0 l1 l2 r0 r1 r2 = none := by
  cases hev : evaluate stake l0 l1 l2 r0 r1 r2 with
  | none => rfl
  | some sig =>
    exfalso
    obtain ⟨p0, q0, c1, p1, q1, c2, p2, q2, c3, h0, h1, h2, hpnl, hpos⟩ :=
      evaluate_some_final hev
    have b0 := evalLeg_bound hfm0 hr0 hstake.le h0
    have b1 := evalLeg_bound hfm0 hr1 b0.1 h1
    have b2 := evalLeg_bound hfm0 hr2 b1.1 h2
    have hvalid : pricesValid l0 l1 l2 = true := by
      unfold pricesValid
      rw [evalLeg_priceValid h0, evalLeg_priceValid h1, evalLeg_priceValid h2]
      rfl
    have hP : effectiveMultiplier l0 * l0.feeMultiplier *
        (effectiveMultiplier l1 * l0.feeMultiplier) *
        (effectiveMultiplier l2 * l0.feeMultiplier) ≤ 1 := by
      have := hratio
      unfold getFastRatio at this
      rw [if_pos hvalid, hfm1, hfm2] at this
      exact this
    set e0 := effectiveMultiplier l0 * l0.feeMultiplier with he0
    set e1 := effectiveMultiplier l1 * l0.feeMultiplier with he1
    set e2 := effectiveMultiplier l2 * l0.feeMultiplier with he2
    have he0n : 0 ≤ e0 := mul_nonneg (effectiveMultiplier_nonneg l0) hfm0
    have he1n : 0 ≤ e1 := mul_nonneg (effectiveMultiplier_nonneg l1) hfm0
    have he2n : 0 ≤ e2 := mul_nonneg (effectiveMultiplier_nonneg l2) hfm0
    have hc1 : c1 ≤ stake * e0 := b0.2
    have hc2 : c2 ≤ stake * e0 * e1 :=
      le_trans b1.2 (mul_le_mul_of_nonneg_right hc1 he1n)
    have hc3 : c3 ≤ stake * e0 * e1 * e2 :=
      le_trans b2.2 (mul_le_mul_of_nonneg_right hc2 he2n)
    have hprod : stake * e0 * e1 * e2 ≤ stake := by
      have h1 : stake * (e0 * e1 * e2) ≤ stake * 1 :=
        mul_le_mul_of_nonneg_left hP hstake.le
      calc stake * e0 * e1 * e2 = stake * (e0 * e1 * e2) := by ring
        _ ≤ stake * 1 := h1
        _ = stake := mul_one stake
    linarith [hpos, hpnl, hc3, hprod]

/-- Claim C2, witness: the amended soundness at three identical Sell legs
with bid `1/2`, zero fee and identity rounding. -/
theorem fast_screen_sound_witness :
    evaluate 1 ⟨false, 1 / 2, 1, 1⟩ ⟨false, 1 / 2, 1, 1⟩ ⟨false, 1 / 2, 1, 1⟩
      (LotSizeFilter.roundQty ⟨0, 0, 0⟩) (LotSizeFilter.roundQty ⟨0, 0, 0⟩)
      (LotSizeFilter.roundQty ⟨0, 0, 0⟩) = none :=
  fast_screen_sound_amended ⟨false, 1 / 2, 1, 1⟩ ⟨false, 1 / 2, 1, 1⟩
    ⟨false, 1 / 2, 1, 1⟩ (LotSizeFilter.roundQty ⟨0, 0, 0⟩)
    (LotSizeFilter.roundQty ⟨0, 0, 0⟩) (LotSizeFilter.roundQty ⟨0, 0, 0⟩) 1
    rfl rfl (by norm_num)
    (fun x _ => (roundQty_zero_id x).le) (fun x _ => (roundQty_zero_id x).le)
    (fun x _ => (roundQty_zero_id x).le)
    (by norm_num)
    (by unfold getFastRatio pricesValid legPriceValid effectiveMultiplier; norm_num)

/-- Claim C3: at fees `0%, 50%, 50%` (fee multipliers `1, 1/2, 1/2`) the
code's full evaluation propagates every leg with leg 1's fee and reports
pnl `700` from stake `100`, while applying each leg's own fee multiplier —
as the constructor precomputes and the spec states — yields pnl `100`. -/
theorem evaluate_uses_leg0_fee_for_all_legs :
    evaluate 100 ⟨false, 2, 1, 1⟩ ⟨false, 2, 1, 1 / 2⟩ ⟨false, 2, 1, 1 / 2⟩
        (LotSizeFilter.roundQty ⟨0, 0, 0⟩) (LotSizeFilter.roundQty ⟨0, 0, 0⟩)
        (LotSizeFilter.roundQty ⟨0, 0, 0⟩) =
      some ⟨700, [(2, 100), (2, 200), (2, 400)]⟩ ∧
    evaluatePerLegFees 100 ⟨false, 2, 1, 1⟩ ⟨false, 2, 1, 1 / 2⟩ ⟨false, 2, 1, 1 / 2⟩
        (LotSizeFilter.roundQty ⟨0, 0, 0⟩) (LotSizeFilter.roundQty ⟨0, 0, 0⟩)
        (LotSizeFilter.roundQty ⟨0, 0, 0⟩) =
      some ⟨100, [(2, 100), (2, 200), (2, 200)]⟩ ∧
    (700 : ℚ) ≠ 100 := by
  refine ⟨?_, ?_, by norm_num⟩
  · unfold evaluate evalLeg
    simp only [roundQty_zero_id]
    norm_num
  · unfold evaluatePerLegFees evalLeg
    simp only [roundQty_zero_id]
    norm_num

/-- The leg-2-rejection scenario, computed: leg 1 fills in full, leg 2 is
rejected; the audit stream is leg 1's `EXECUTED` record only and the run
fails at leg index 1. -/
theorem leg2_scenario_records :
    executeArbitrageRecords "p1" (fun _ => "oid")
        (fun n => if n = 0 then ⟨OrderStatus.filled, 1, 50000⟩
          else ⟨OrderStatus.rejected, 0, 0⟩)
        [⟨"BTCUSDT", Side.buy, 1, 50000⟩, ⟨"ETHBTC", Side.buy, 2, 3 / 50⟩,
          ⟨"ETHUSDT", Side.sell, 2, 3000⟩] =
      [⟨"oid", "p1", TradeType.entry, "BTCUSDT", Side.buy, 50000, 1, 50000, 1,
        TradeStatus.executed, 0, 0⟩] ∧
    executeArbitrageFailedLeg "p1" (fun _ => "oid")
        (fun n => if n = 0 then ⟨OrderStatus.filled, 1, 50000⟩
          else ⟨OrderStatus.rejected, 0, 0⟩)
        [⟨"BTCUSDT", Side.buy, 1, 50000⟩, ⟨"ETHBTC", Side.buy, 2, 3 / 50⟩,
          ⟨"ETHUSDT", Side.sell, 2, 3000⟩] = some 1 := by
  constructor <;>
    · simp only [executeArbitrageRecords, executeArbitrageFailedLeg, execLegs]
      norm_num

/-- What membership in `getPossibleOrders` yields: the symbol comes from
the given list, the order consumes the given coin, and the direction is
Sell or Buy. -/
theorem mem_getPossibleOrders {coin : String} {syms : List Sym} {o : POrder}
    (h : o ∈ getPossibleOrders coin syms) :
    o.sym ∈ syms ∧ o.getStartingAsset = coin ∧ (o.way = Way.sell ∨ o.way = Way.buy) := by
  unfold getPossibleOrders at h
  rw [List.mem_filterMap] at h
  obtain ⟨s, hs, hf⟩ := h
  split_ifs at hf with h1 h2
  · obtain rfl := Option.some.inj hf
    exact ⟨hs, h1.symm, Or.inl rfl⟩
  · obtain rfl := Option.some.inj hf
    exact ⟨hs, h2.symm, Or.inr rfl⟩

/-- What membership in one `extendStep` yields: a path of the previous
level extended by one order over an unused symbol, returning to the
starting asset when the iteration is the last one. -/
theorem mem_extendStep {syms : List Sym} {a : String} {d i : Nat}
    {ps : List (List POrder)} {p2 : List POrder}
    (h : p2 ∈ extendStep syms a d i ps) :
    ∃ p nxt, p ∈ ps ∧ p2 = p ++ [nxt] ∧
      nxt.sym ∈ syms ∧ (nxt.way = Way.sell ∨ nxt.way = Way.buy) ∧
      (∀ o ∈ p, symEq o.sym nxt.sym = false) ∧
      (i = d - 2 → resultingCoin nxt = a) ∧
      ∃ lastO, p.getLast? = some lastO ∧ nxt.getStartingAsset = resultingCoin lastO := by
  unfold extendStep at h
  rw [List.mem_flatMap] at h
  obtain ⟨p, hp, hin⟩ := h
  cases hl : p.getLast? with
  | none =>
    rw [hl] at hin
    simp at hin
  | some lastO =>
    rw [hl] at hin
    rw [List.mem_filterMap] at hin
    obtain ⟨nxt, hnxt, hif⟩ := hin
    obtain ⟨hsymU, hstart, hway⟩ := mem_getPossibleOrders hnxt
    rw [List.mem_filter] at hsymU
    obtain ⟨hsymS, hpred⟩ := hsymU
    have hany : (p.any fun o => symEq o.sym nxt.sym) = false := by
      simpa using hpred
    split_ifs at hif with hcond
    obtain rfl := Option.some.inj hif
    push_neg at hcond
    refine ⟨p, nxt, hp, rfl, hsymS, hway, ?_, hcond, lastO, hl, hstart⟩
    intro o ho
    simpa using List.any_eq_false.mp hany o ho

/-- For a Sell or Buy order the `resultingCoin` of the enumeration loop is
the order's resulting asset. -/
theorem resultingAsset_eq_coin {o : POrder} (h : o.way = Way.sell ∨ o.way = Way.buy) :
    o.getResultingAsset = resultingCoin o := by
  obtain ⟨s, w⟩ := o
  rcases h with h | h <;> (cases h; rfl)

/-- Claim C5: every cycle the depth-3 enumeration returns has three legs
whose symbols are pairwise distinct under the code's symbol equality, and
is closed — its first leg consumes the starting asset and its last leg's
resulting asset equals the starting asset. -/
theorem computeArbitragePaths_depth3_sound (symbolsList : List Sym)
    (startingAsset : String) (path : List POrder)
    (hmem : path ∈ computeArbitragePaths symbolsList startingAsset 3) :
    path.length = 3 ∧
    path.Pairwise (fun o1 o2 => symEq o1.sym o2.sym = false) ∧
    (∃ first, path.head? = some first ∧ first.getStartingAsset = startingAsset) ∧
    (∃ lastO, path.getLast? = some lastO ∧
      lastO.getResultingAsset = startingAsset) := by
  have hred : computeArbitragePaths symbolsList startingAsset 3 =
      extendStep symbolsList startingAsset 3 1
        (extendStep symbolsList startingAsset 3 0
          ((getPossibleOrders startingAsset symbolsList).map fun order => [order])) := rfl
  rw [hred] at hmem
  obtain ⟨p1, nxt2, hp1, rfl, hsym2, hway2, hdist2, hclose2, lastO1, hlast1, hlink2⟩ :=
    mem_extendStep hmem
  obtain ⟨p0, nxt1, hp0, rfl, hsym1, hway1, hdist1, hclose1, lastO0, hlast0, hlink1⟩ :=
    mem_extendStep hp1
  rw [List.mem_map] at hp0
  obtain ⟨o, ho, rfl⟩ := hp0
  obtain ⟨hoS, hoStart, hoWay⟩ := mem_getPossibleOrders ho
  have hclose : resultingCoin nxt2 = startingAsset := hclose2 rfl
  refine ⟨by simp, ?_, ⟨o, by simp, hoStart⟩, ⟨nxt2, by simp, ?_⟩⟩
  · have h01 : symEq o.sym nxt1.sym = false := hdist1 o (by simp)
    have h02 : symEq o.sym nxt2.sym = false := hdist2 o (by simp)
    have h12 : symEq nxt1.sym nxt2.sym = false := hdist2 nxt1 (by simp)
    simp only [List.cons_append, List.nil_append]
    refine List.Pairwise.cons ?_ (List.Pairwise.cons ?_ (List.Pairwise.cons ?_ List.Pairwise.nil))
    · intro b hb
      rcases List.mem_cons.mp hb with rfl | hb2
      · exact h01
      · rcases List.mem_singleton.mp hb2 with rfl
        exact h02
    · intro b hb
      rcases List.mem_singleton.mp hb with rfl
      exact h12
    · intro b hb
      cases hb
  · rw [resultingAsset_eq_coin hway2]
    exact hclose

/-- Claim C5, witness: the enumeration over `{BTCUSDT, ETHBTC, ETHUSDT}`
from `USDT` contains the cycle Buy BTCUSDT → Buy ETHBTC → Sell ETHUSDT,
and that cycle satisfies the soundness conclusion. -/
theorem computeArbitragePaths_depth3_witness :
    ([⟨⟨"BTC", "USDT", "BTCUSDT"⟩, Way.buy⟩, ⟨⟨"ETH", "BTC", "ETHBTC"⟩, Way.buy⟩,
        ⟨⟨"ETH", "USDT", "ETHUSDT"⟩, Way.sell⟩] : List POrder).length = 3 ∧
    ([⟨⟨"BTC", "USDT", "BTCUSDT"⟩, Way.buy⟩, ⟨⟨"ETH", "BTC", "ETHBTC"⟩, Way.buy⟩,
        ⟨⟨"ETH", "USDT", "ETHUSDT"⟩, Way.sell⟩] : List POrder).Pairwise
      (fun o1 o2 => symEq o1.sym o2.sym = false) ∧
    (∃ first, ([⟨⟨"BTC", "USDT", "BTCUSDT"⟩, Way.buy⟩, ⟨⟨"ETH", "BTC", "ETHBTC"⟩, Way.buy⟩,
        ⟨⟨"ETH", "USDT", "ETHUSDT"⟩, Way.sell⟩] : List POrder).head? = some first ∧
      first.getStartingAsset = "USDT") ∧
    (∃ lastO, ([⟨⟨"BTC", "USDT", "BTCUSDT"⟩, Way.buy⟩, ⟨⟨"ETH", "BTC", "ETHBTC"⟩, Way.buy⟩,
        ⟨⟨"ETH", "USDT", "ETHUSDT"⟩, Way.sell⟩] : List POrder).getLast? = some lastO ∧
      lastO.getResultingAsset = "USDT") :=
  computeArbitragePaths_depth3_sound
    [⟨"BTC", "USDT", "BTCUSDT"⟩, ⟨"ETH", "BTC", "ETHBTC"⟩, ⟨"ETH", "USDT", "ETHUSDT"⟩]
    "USDT"
    [⟨⟨"BTC", "USDT", "BTCUSDT"⟩, Way.buy⟩, ⟨⟨"ETH", "BTC", "ETHBTC"⟩, Way.buy⟩,
      ⟨⟨"ETH", "USDT", "ETHUSDT"⟩, Way.sell⟩]
    (by decide)

/-- The retry loop for one leg submits its rollback order once or twice
(once when the first attempt fills), and advances the submission index by
that count. -/
theorem rollbackAttempts_spec (statuses : Nat → OrderStatus) (e : ExecutedOrder)
    (n : Nat) :
    ∃ c b, (c = 1 ∨ c = 2) ∧
      rollbackAttempts statuses e n (MAX_ROLLBACK_RETRIES + 1) =
        (List.replicate c (rollbackSubmission e), n + c, b) := by
  by_cases h0 : statuses n = OrderStatus.filled
  · exact ⟨1, true, Or.inl rfl, by simp [rollbackAttempts, MAX_ROLLBACK_RETRIES, h0]⟩
  · by_cases h1 : statuses (n + 1) = OrderStatus.filled
    · refine ⟨2, true, Or.inr rfl, ?_⟩
      simp [rollbackAttempts, MAX_ROLLBACK_RETRIES, h0, h1, List.replicate]
    · refine ⟨2, false, Or.inr rfl, ?_⟩
      simp [rollbackAttempts, MAX_ROLLBACK_RETRIES, h0, h1, List.replicate]

/-- The rollback leg loop submits, leg by leg in the order given, each
leg's rollback order one or two times. -/
theorem rollbackLoop_spec (statuses : Nat → OrderStatus) :
    ∀ (l : List ExecutedOrder) (n : Nat),
      ∃ counts : List Nat, counts.length = l.length ∧
        (∀ c ∈ counts, c = 1 ∨ c = 2) ∧
        (rollbackLoop statuses n l).1 =
          (l.zip counts).flatMap fun ec => List.replicate ec.2 (rollbackSubmission ec.1) := by
  intro l
  induction l with
  | nil =>
    intro n
    exact ⟨[], rfl, by simp, by simp [rollbackLoop]⟩
  | cons e rest ih =>
    intro n
    obtain ⟨c, b, hc, heq⟩ := rollbackAttempts_spec statuses e n
    obtain ⟨counts, hlen, hall, hsubs⟩ := ih (n + c)
    refine ⟨c :: counts, by simp [hlen], ?_, ?_⟩
    · intro x hx
      rcases List.mem_cons.mp hx with rfl | hx2
      · exact hc
      · exact hall x hx2
    · simp only [rollbackLoop, heq, List.zip_cons_cons, List.flatMap_cons]
      rw [hsubs]

/-- When every attempt fills, each leg submits exactly once. -/
theorem rollbackLoop_all_filled (statuses : Nat → OrderStatus)
    (hf : ∀ n, statuses n = OrderStatus.filled) :
    ∀ (l : List ExecutedOrder) (n : Nat),
      (rollbackLoop statuses n l).1 = l.map rollbackSubmission := by
  intro l
  induction l with
  | nil =>
    intro n
    simp [rollbackLoop]
  | cons e rest ih =>
    intro n
    simp [rollbackLoop, rollbackAttempts, MAX_ROLLBACK_RETRIES, hf, ih]

/-- Claim C6: `executeRollback` processes the recorded executed orders in
LIFO order — the submission stream is the reversed executed list, each leg
contributing its opposite-side order with the filled quantity once or, on
a failed first attempt, twice, and a later leg's failure never stops the
earlier legs; when every rollback fills, the stream is exactly the
reversed legs; and a failure at leg 1 with nothing executed submits no
rollback order at all. -/
theorem executeRollback_lifo :
    (∀ (statuses : Nat → OrderStatus) (executedOrders : List ExecutedOrder),
      ∃ counts : List Nat, counts.length = executedOrders.length ∧
        (∀ c ∈ counts, c = 1 ∨ c = 2) ∧
        (executeRollback statuses executedOrders).1 =
          (executedOrders.reverse.zip counts).flatMap
            fun ec => List.replicate ec.2 (rollbackSubmission ec.1)) ∧
    (∀ (statuses : Nat → OrderStatus) (executedOrders : List ExecutedOrder),
      (∀ n, statuses n = OrderStatus.filled) →
      (executeRollback statuses executedOrders).1 =
        executedOrders.reverse.map rollbackSubmission) ∧
    (∀ statuses : Nat → OrderStatus,
      handleExecutionFailureSubmissions statuses [] = []) := by
  refine ⟨?_, ?_, ?_⟩
  · intro statuses executedOrders
    obtain ⟨counts, hlen, hall, hsubs⟩ :=
      rollbackLoop_spec statuses executedOrders.reverse 0
    exact ⟨counts, by simpa using hlen, hall, hsubs⟩
  · intro statuses executedOrders hf
    exact rollbackLoop_all_filled statuses hf executedOrders.reverse 0
  · intro statuses
    rfl

/-- Every audit record the executor's leg loop appends has status
`EXECUTED` and the sequence's parent id. -/
theorem execLegs_records_executed (parent : String) (clOrdIds : Nat → String)
    (outcomes : Nat → LegOutcome) (totalLegs : Nat) :
    ∀ (legs : List SignalLeg) (k : Nat) (r : TradeRecord),
      r ∈ (execLegs parent clOrdIds outcomes totalLegs k legs).1 →
      r.status = TradeStatus.executed ∧ r.parentTradeId = parent := by
  intro legs
  induction legs with
  | nil =>
    intro k r hr
    simp [execLegs] at hr
  | cons leg rest ih =>
    intro k r hr
    simp only [execLegs] at hr
    split at hr
    · simp at hr
    · split at hr
      · simp at hr
      · simp only [List.mem_cons] at hr
        rcases hr with rfl | hr2
        · exact ⟨rfl, rfl⟩
        · exact ih (k + 1) r hr2

/-- Claim C7, amended: after any execution — in particular one that fails
at leg k with legs 1..k-1 filled — the audit log holds exactly `EXECUTED`
records of the filled legs under the sequence's parent id; the failed leg
and the rollback orders are logged but never written to the audit log. -/
theorem audit_records_executed_only (parent : String) (clOrdIds : Nat → String)
    (outcomes : Nat → LegOutcome) (legs : List SignalLeg) :
    ∀ r ∈ executeArbitrageRecords parent clOrdIds outcomes legs,
      r.status = TradeStatus.executed ∧ r.parentTradeId = parent := by
  intro r hr
  exact execLegs_records_executed parent clOrdIds outcomes legs.length legs 0 r hr

/-- Claim C7, witness: the only record of the leg-2-rejection scenario is
an `EXECUTED` record under the parent id. -/
theorem audit_records_executed_only_witness :
    (⟨"oid", "p1", TradeType.entry, "BTCUSDT", Side.buy, 50000, 1, 50000, 1,
        TradeStatus.executed, 0, 0⟩ : TradeRecord).status = TradeStatus.executed ∧
    (⟨"oid", "p1", TradeType.entry, "BTCUSDT", Side.buy, 50000, 1, 50000, 1,
        TradeStatus.executed, 0, 0⟩ : TradeRecord).parentTradeId = "p1" :=
  audit_records_executed_only "p1" (fun _ => "oid")
    (fun n => if n = 0 then ⟨OrderStatus.filled, 1, 50000⟩ else ⟨OrderStatus.rejected, 0, 0⟩)
    [⟨"BTCUSDT", Side.buy, 1, 50000⟩, ⟨"ETHBTC", Side.buy, 2, 3 / 50⟩,
      ⟨"ETHUSDT", Side.sell, 2, 3000⟩]
    ⟨"oid", "p1", TradeType.entry, "BTCUSDT", Side.buy, 50000, 1, 50000, 1,
      TradeStatus.executed, 0, 0⟩
    (by rw [leg2_scenario_records.1]; exact List.mem_singleton_self _)

/-- Claim C7, counterexample: leg 1 fills in full, leg 2 is rejected.  The
audit stream of the run is the single `EXECUTED` record of leg 1 — no
`FAILED` record for leg 2 and no `ROLLBACK` record for leg 1 is written. -/
theorem leg2_failure_audit_cex :
    executeArbitrageRecords "p1" (fun _ => "oid")
        (fun n => if n = 0 then ⟨OrderStatus.filled, 1, 50000⟩
          else ⟨OrderStatus.rejected, 0, 0⟩)
        [⟨"BTCUSDT", Side.buy, 1, 50000⟩, ⟨"ETHBTC", Side.buy, 2, 3 / 50⟩,
          ⟨"ETHUSDT", Side.sell, 2, 3000⟩] =
      [⟨"oid", "p1", TradeType.entry, "BTCUSDT", Side.buy, 50000, 1, 50000, 1,
        TradeStatus.executed, 0, 0⟩] ∧
    executeArbitrageFailedLeg "p1" (fun _ => "oid")
        (fun n => if n = 0 then ⟨OrderStatus.filled, 1, 50000⟩
          else ⟨OrderStatus.rejected, 0, 0⟩)
        [⟨"BTCUSDT", Side.buy, 1, 50000⟩, ⟨"ETHBTC", Side.buy, 2, 3 / 50⟩,
          ⟨"ETHUSDT", Side.sell, 2, 3000⟩] = some 1 ∧
    (executeArbitrageRecords "p1" (fun _ => "oid")
        (fun n => if n = 0 then ⟨OrderStatus.filled, 1, 50000⟩
          else ⟨OrderStatus.rejected, 0, 0⟩)
        [⟨"BTCUSDT", Side.buy, 1, 50000⟩, ⟨"ETHBTC", Side.buy, 2, 3 / 50⟩,
          ⟨"ETHUSDT", Side.sell, 2, 3000⟩]).all
      (fun r => r.status == TradeStatus.executed) = true := by
  refine ⟨leg2_scenario_records.1, leg2_scenario_records.2, ?_⟩
  rw [leg2_scenario_records.1]
  rfl

/-- Claim C8, witness: the amended characterization at the
counterexample's filter set and price. -/
theorem minQtyForNotional_strict_step_witness :
    SymbolFilters.notionalFloor ⟨⟨0, 0, 1⟩, ⟨2, true⟩, ⟨0, 0, false, false⟩⟩ 2 <
      SymbolFilters.minQtyForNotional ⟨⟨0, 0, 1⟩, ⟨2, true⟩, ⟨0, 0, false, false⟩⟩ 2 ∧
    SymbolFilters.minQtyForNotional ⟨⟨0, 0, 1⟩, ⟨2, true⟩, ⟨0, 0, false, false⟩⟩ 2 =
      ((⌊SymbolFilters.notionalFloor ⟨⟨0, 0, 1⟩, ⟨2, true⟩, ⟨0, 0, false, false⟩⟩ 2 / (1 : ℚ)⌋ : ℚ) + 1) * 1 ∧
    ∀ k : ℤ,
      SymbolFilters.notionalFloor ⟨⟨0, 0, 1⟩, ⟨2, true⟩, ⟨0, 0, false, false⟩⟩ 2 < (k : ℚ) * 1 →
      SymbolFilters.minQtyForNotional ⟨⟨0, 0, 1⟩, ⟨2, true⟩, ⟨0, 0, false, false⟩⟩ 2 ≤ (k : ℚ) * 1 :=
  minQtyForNotional_strict_step_amended ⟨⟨0, 0, 1⟩, ⟨2, true⟩, ⟨0, 0, false, false⟩⟩ 2
    (by norm_num) rfl rfl

/-- Claim C10: an update whose bid and ask are both zero is a complete
no-op at the order book's interface: the state — every slot's sequence
counter, bid and ask, the update bitmap, and both has-updates flags — is
returned unchanged and `notify_one` is never reached, so an all-zero
update can never wake the main loop out of `waitForUpdates`. -/
theorem obUpdate_zero_noop :
    ∀ (s : OrderBookState) (id : Nat), obUpdate s id 0 0 = (s, false) := by
  intro s id
  unfold obUpdate
  rw [if_pos ⟨rfl, rfl⟩]

/-- The slot value after one more completed write is the partial-update
application of that write. -/
theorem slotAfter_succ {writes : List (ℚ × ℚ)} {k : Nat} {w : ℚ × ℚ}
    (h : writes[k]? = some w) :
    slotAfter writes (k + 1) = applyWrite (slotAfter writes k) w := by
  unfold slotAfter
  rw [List.take_succ, h]
  simp

/-- The initial configuration satisfies the seqlock invariant. -/
theorem seqInv_init (writes : List (ℚ × ℚ)) : SeqInv writes seqInit := by
  refine ⟨Nat.zero_le _, ?_, trivial⟩
  unfold writerSlotInv seqInit slotAfter
  simp

/-- An even sequence means the writer is idle. -/
theorem phase_idle_of_even {writes : List (ℚ × ℚ)} {c : SeqConfig}
    (hws : writerSlotInv writes c) (h : c.seq % 2 = 0) : c.phase = WPhase.idle := by
  cases hph : c.phase <;> simp only [writerSlotInv, hph] at hws
  · exact rfl
  · omega
  · obtain ⟨h1, -⟩ := hws
    omega
  · obtain ⟨h1, -⟩ := hws
    omega

/-- The reader invariant survives any writer action that moves the
sequence to a value no captured even sequence can equal. -/
theorem readerInvP_shift {writes : List (ℚ × ℚ)} {rd : RState} {seq : Nat}
    {ph : WPhase} {bid ask : ℚ} (h : readerInvP writes rd seq ph bid ask)
    (seq2 : Nat) (ph2 : WPhase) (bid2 ask2 : ℚ) (hle : seq ≤ seq2)
    (hne : ∀ s1, s1 % 2 = 0 → s1 ≤ seq → s1 ≠ seq2) :
    readerInvP writes rd seq2 ph2 bid2 ask2 := by
  cases rd with
  | start => trivial
  | gotSeq s1 =>
    obtain ⟨he, hl, -⟩ := h
    exact ⟨he, hl.trans hle, fun heq => absurd heq (hne s1 he hl)⟩
  | gotBid s1 b =>
    obtain ⟨he, hl, -⟩ := h
    exact ⟨he, hl.trans hle, fun heq => absurd heq (hne s1 he hl)⟩
  | gotAsk s1 b a =>
    obtain ⟨he, hl, -⟩ := h
    exact ⟨he, hl.trans hle, fun heq => absurd heq (hne s1 he hl)⟩
  | finished b a => exact h

/-- One interleaved step preserves the seqlock invariant. -/
theorem seqInv_step {writes : List (ℚ × ℚ)} {c c2 : SeqConfig}
    (hstep : SeqStep writes c c2) (hinv : SeqInv writes c) : SeqInv writes c2 := by
  obtain ⟨hwd, hws, hrd⟩ := hinv
  cases hstep with
  | wSkip w hph hget h1 h2 =>
    have hlt : c.wdone < writes.length := (List.getElem?_eq_some.mp hget).1
    simp only [writerSlotInv, hph] at hws
    refine ⟨show c.wdone + 1 ≤ writes.length by omega, ?_, hrd⟩
    show writerSlotInv writes _
    simp only [writerSlotInv, hph]
    refine ⟨hws.1, ?_⟩
    rw [slotAfter_succ hget, ← hws.2]
    unfold applyWrite
    rw [h1, h2]
    norm_num
  | wBegin w hph hget hnz =>
    simp only [writerSlotInv, hph] at hws
    refine ⟨hwd, ?_, ?_⟩
    · show writerSlotInv writes _
      simp only [writerSlotInv]
      exact ⟨by omega, hws.2⟩
    · show readerInvP writes c.reader (c.seq + 1) WPhase.wroteSeq c.bid c.ask
      refine readerInvP_shift hrd _ _ _ _ (Nat.le_succ _) ?_
      intro s1 he hl heq
      omega
  | wWriteBid w hph hget =>
    simp only [writerSlotInv, hph] at hws
    have hodd := hws.1
    refine ⟨hwd, ?_, ?_⟩
    · show writerSlotInv writes _
      simp only [writerSlotInv]
      refine ⟨hodd, w, hget, ?_, ?_⟩
      · rw [← hws.2]
        rfl
      · rw [← hws.2]
    · show readerInvP writes c.reader c.seq WPhase.wroteBid
        (if 0 < w.1 then w.1 else c.bid) c.ask
      refine readerInvP_shift hrd _ _ _ _ (le_refl _) ?_
      intro s1 he hl heq
      omega
  | wWriteAsk w hph hget =>
    simp only [writerSlotInv, hph] at hws
    obtain ⟨hodd, w2, hget2, hbid, hask⟩ := hws
    have hw : w2 = w := by
      rw [hget] at hget2
      exact (Option.some.inj hget2).symm
    subst hw
    refine ⟨hwd, ?_, ?_⟩
    · show writerSlotInv writes _
      simp only [writerSlotInv]
      refine ⟨hodd, w2, hget, ?_⟩
      rw [hbid, hask]
      rfl
    · show readerInvP writes c.reader c.seq WPhase.wroteAsk c.bid
        (if 0 < w2.2 then w2.2 else c.ask)
      refine readerInvP_shift hrd _ _ _ _ (le_refl _) ?_
      intro s1 he hl heq
      omega
  | wEnd hph =>
    simp only [writerSlotInv, hph] at hws
    obtain ⟨hodd, w, hget, hpair⟩ := hws
    have hlt : c.wdone < writes.length := (List.getElem?_eq_some.mp hget).1
    refine ⟨show c.wdone + 1 ≤ writes.length by omega, ?_, ?_⟩
    · show writerSlotInv writes _
      simp only [writerSlotInv]
      refine ⟨by omega, ?_⟩
      rw [slotAfter_succ hget]
      exact hpair
    · show readerInvP writes c.reader (c.seq + 1) WPhase.idle c.bid c.ask
      refine readerInvP_shift hrd _ _ _ _ (Nat.le_succ _) ?_
      intro s1 he hl heq
      omega
  | rReadSeq hrs heven =>
    refine ⟨hwd, hws, ?_⟩
    show readerInvP writes (RState.gotSeq c.seq) c.seq c.phase c.bid c.ask
    exact ⟨heven, le_refl _, fun _ => phase_idle_of_even hws heven⟩
  | rReadBid s1 hrs =>
    simp only [readerInv, readerInvP, hrs] at hrd
    obtain ⟨he, hl, him⟩ := hrd
    refine ⟨hwd, hws, ?_⟩
    show readerInvP writes (RState.gotBid s1 c.bid) c.seq c.phase c.bid c.ask
    exact ⟨he, hl, fun heq => ⟨him heq, rfl⟩⟩
  | rReadAsk s1 b hrs =>
    simp only [readerInv, readerInvP, hrs] at hrd
    obtain ⟨he, hl, him⟩ := hrd
    refine ⟨hwd, hws, ?_⟩
    show readerInvP writes (RState.gotAsk s1 b c.ask) c.seq c.phase c.bid c.ask
    exact ⟨he, hl, fun heq => ⟨(him heq).1, (him heq).2, rfl⟩⟩
  | rRetry s1 b a hrs hne =>
    exact ⟨hwd, hws, trivial⟩
  | rDone s1 b a hrs hseq =>
    simp only [readerInv, readerInvP, hrs] at hrd
    obtain ⟨he, hl, him⟩ := hrd
    obtain ⟨hidle, hb, ha⟩ := him hseq.symm
    refine ⟨hwd, hws, ?_⟩
    show readerInvP writes (RState.finished b a) c.seq c.phase c.bid c.ask
    simp only [readerInvP]
    have hws2 := hws
    simp only [writerSlotInv, hidle] at hws2
    refine ⟨c.wdone, hwd, ?_⟩
    rw [hb, ha]
    exact hws2.2

/-- Every reachable configuration satisfies the seqlock invariant. -/
theorem seqInv_reachable {writes : List (ℚ × ℚ)} {c : SeqConfig}
    (h : SeqReachable writes c) : SeqInv writes c := by
  unfold SeqReachable at h
  induction h with
  | refl => exact seqInv_init writes
  | tail hsteps hstep ih => exact seqInv_step hstep ih

/-- Claim C9: under sequentially consistent interleaving of the seqlock's
atomic actions, a completed `get` never returns a torn pair: its result is
the slot value after some prefix of the completed writes; in particular,
with a writer alternating `(1,2)` and `(3,4)` a reader observes `(0,0)`
(before the first write), `(1,2)` or `(3,4)`, never `(1,4)` or `(3,2)`. -/
theorem seqlock_no_torn_read :
    (∀ (writes : List (ℚ × ℚ)) (c : SeqConfig) (b a : ℚ),
      SeqReachable writes c → c.reader = RState.finished b a →
      ∃ k, k ≤ writes.length ∧ (b, a) = slotAfter writes k) ∧
    (∀ (c : SeqConfig) (b a : ℚ),
      SeqReachable [(1, 2), (3, 4)] c → c.reader = RState.finished b a →
      (b, a) = ((0 : ℚ), (0 : ℚ)) ∨ (b, a) = (1, 2) ∨ (b, a) = (3, 4)) := by
  have main : ∀ (writes : List (ℚ × ℚ)) (c : SeqConfig) (b a : ℚ),
      SeqReachable writes c → c.reader = RState.finished b a →
      ∃ k, k ≤ writes.length ∧ (b, a) = slotAfter writes k := by
    intro writes c b a hreach hfin
    obtain ⟨-, -, hrd⟩ := seqInv_reachable hreach
    simp only [readerInv, readerInvP, hfin] at hrd
    exact hrd
  refine ⟨main, ?_⟩
  intro c b a hreach hfin
  obtain ⟨k, hk, heq⟩ := main _ c b a hreach hfin
  have hk2 : k ≤ 2 := by simpa using hk
  interval_cases k
  · left
    simpa [slotAfter] using heq
  · right
    left
    rw [heq]
    norm_num [slotAfter, applyWrite]
  · right
    right
    rw [heq]
    norm_num [slotAfter, applyWrite]

end Runner
